import Mathlib

/-!
Verification of the Wildcard-Hierarchy-Generator core (src/app.py) via a
shallow embedding in Lean.

The Python values flowing through the core pipeline are nested structures
built from strings, `None`, lists and (insertion-ordered) dicts with string
keys.  `PyVal` embeds exactly this value space; dicts are association lists
in insertion order (Python dicts preserve insertion order and have unique
keys — uniqueness is part of the `validTreeB` well-formedness predicate
below, since association lists do not enforce it).

String comparison: Python compares strings lexicographically by Unicode
code point.  The embedding uses an explicit code-point-lexicographic order
(`charsLt`/`strLt`/`strLe`) and an insertion sort (`sortStrs`), which agree
extensionally with Python's `sorted` on strings (sorting is stable, and
equal strings are identical, so any correct sort computes the same list).
`str.replace` is only used in the source with single-character patterns
(`'_' → ' '` and `' ' → '_'`), embedded as the character map `replaceChar`.
-/

inductive PyVal where
  | str : String → PyVal
  | none : PyVal
  | list : List PyVal → PyVal
  | dict : List (String × PyVal) → PyVal

mutual
def PyVal.decEq : (a b : PyVal) → Decidable (a = b)
  | .str s, .str t =>
      match String.decEq s t with
      | isTrue h => isTrue (by rw [h])
      | isFalse h => isFalse (by intro he; cases he; exact h rfl)
  | .str _, .none => isFalse (by intro h; cases h)
  | .str _, .list _ => isFalse (by intro h; cases h)
  | .str _, .dict _ => isFalse (by intro h; cases h)
  | .none, .str _ => isFalse (by intro h; cases h)
  | .none, .none => isTrue rfl
  | .none, .list _ => isFalse (by intro h; cases h)
  | .none, .dict _ => isFalse (by intro h; cases h)
  | .list _, .str _ => isFalse (by intro h; cases h)
  | .list _, .none => isFalse (by intro h; cases h)
  | .list l, .list m =>
      match PyVal.decEqList l m with
      | isTrue h => isTrue (by rw [h])
      | isFalse h => isFalse (by intro he; cases he; exact h rfl)
  | .list _, .dict _ => isFalse (by intro h; cases h)
  | .dict _, .str _ => isFalse (by intro h; cases h)
  | .dict _, .none => isFalse (by intro h; cases h)
  | .dict _, .list _ => isFalse (by intro h; cases h)
  | .dict kvs, .dict kvs' =>
      match PyVal.decEqKVs kvs kvs' with
      | isTrue h => isTrue (by rw [h])
      | isFalse h => isFalse (by intro he; cases he; exact h rfl)

def PyVal.decEqList : (l m : List PyVal) → Decidable (l = m)
  | [], [] => isTrue rfl
  | [], _ :: _ => isFalse (by intro h; cases h)
  | _ :: _, [] => isFalse (by intro h; cases h)
  | x :: xs, y :: ys =>
      match PyVal.decEq x y with
      | isTrue h1 =>
          match PyVal.decEqList xs ys with
          | isTrue h2 => isTrue (by rw [h1, h2])
          | isFalse h2 => isFalse (by intro he; cases he; exact h2 rfl)
      | isFalse h1 => isFalse (by intro he; cases he; exact h1 rfl)

def PyVal.decEqKVs : (l m : List (String × PyVal)) → Decidable (l = m)
  | [], [] => isTrue rfl
  | [], _ :: _ => isFalse (by intro h; cases h)
  | _ :: _, [] => isFalse (by intro h; cases h)
  | (k, v) :: xs, (k', v') :: ys =>
      match String.decEq k k' with
      | isTrue hk =>
          match PyVal.decEq v v' with
          | isTrue h1 =>
              match PyVal.decEqKVs xs ys with
              | isTrue h2 => isTrue (by rw [hk, h1, h2])
              | isFalse h2 => isFalse (by intro he; cases he; exact h2 rfl)
          | isFalse h1 => isFalse (by intro he; cases he; exact h1 rfl)
      | isFalse hk => isFalse (by intro he; cases he; exact hk rfl)
end

instance : DecidableEq PyVal := PyVal.decEq

/-- Code-point-lexicographic strict order on character lists: the order
Python uses to compare strings. -/
def charsLt : List Char → List Char → Bool
  | [], [] => false
  | [], _ :: _ => true
  | _ :: _, [] => false
  | c :: cs, d :: ds =>
      if c.toNat < d.toNat then true
      else if d.toNat < c.toNat then false
      else charsLt cs ds

def strLt (a b : String) : Bool := charsLt a.toList b.toList

def strLe (a b : String) : Bool := !(strLt b a)

def insertStr (x : String) : List String → List String
  | [] => [x]
  | y :: ys => if strLe x y then x :: y :: ys else y :: insertStr x ys

/-- Python's `sorted` on a list of strings (insertion sort; extensionally
equal to any correct sort since equal strings are identical). -/
def sortStrs (l : List String) : List String := l.foldr insertStr []

/-- Python's `sorted(list(set(l)))` on a list of strings: the strictly
sorted enumeration of the distinct elements. -/
def pySortedSet (l : List String) : List String := sortStrs l.dedup

/-- Models Python `str.replace(a, b)` for a single-character pattern and
replacement (the only uses in the source are `'_'→' '` and `' '→'_'`). -/
def replaceChar (a b : Char) (s : String) : String :=
  String.mk (s.toList.map fun c => if c = a then b else c)

/-- `is_leaf_content` from `convert_to_wildcard_format` (src/app.py:71-75):
a value is leaf content when it is `{}`, a string, or `None`. -/
def is_leaf_content : PyVal → Bool
  | .dict [] => true
  | .str _ => true
  | .none => true
  | _ => false

/-- Collects the elements of a Python list when they are all strings
(`sorted(list(set(data)))` in the source requires this on the trees the
pipeline produces; on anything else Python would raise `TypeError`). -/
def asStrings : List PyVal → Option (List String)
  | [] => some []
  | .str s :: rest => (asStrings rest).map (s :: ·)
  | _ => Option.none

/-- The per-child classification inside `convert_to_wildcard_format`
(src/app.py:87-106): for key `k` with already-converted child `cv`, returns
`some name` when the child is recorded as a leaf with value `name`
(leaf content, with the key standing in for `{}`/`None`; or the redundant
singleton `[k]`), and `none` when the child stays a subtree. -/
def leafNameOf (k : String) : PyVal → Option String
  | .dict [] => some k
  | .none => some k
  | .str s => some s
  | .list [.str s] => if s = k then some s else Option.none
  | _ => Option.none

/-- `all(child_is_leaf.values())` over the processed children
(src/app.py:111). -/
def allLeafB (proc : List (String × PyVal)) : Bool :=
  proc.all (fun p => (leafNameOf p.1 p.2).isSome)

/-- The leaf values recorded in `processed_children` for the leaf children,
in insertion order (src/app.py:91/96, read back at line 112). -/
def leafNames (proc : List (String × PyVal)) : List String :=
  proc.filterMap fun p => leafNameOf p.1 p.2

/-- In the mixed branch (src/app.py:114-119) a leaf child is wrapped as the
singleton list of its leaf value and a subtree child is kept as is. -/
def wrapLeaf (k : String) (cv : PyVal) : PyVal :=
  match leafNameOf k cv with
  | some n => .list [.str n]
  | Option.none => cv

mutual
/-- `convert_to_wildcard_format` (src/app.py:67-122), the Shape
Canonicalizer.  Leaf content is returned unchanged; a list is deduplicated
and sorted; a non-empty dict converts its children, then either collapses
to a sorted list of the leaf names when every child is a leaf
(src/app.py:111-112, note: `sorted(...)` without `set`), or keeps a dict in
which leaf children are wrapped as singleton lists (src/app.py:113-120).
The `if not processed_children` branch (line 108) is unreachable: an empty
dict is leaf content and returns at line 77. -/
def convert_to_wildcard_format : PyVal → PyVal
  | .str s => .str s
  | .none => .none
  | .dict [] => .dict []
  | .list l =>
      match asStrings l with
      | some ss => .list ((pySortedSet ss).map .str)
      | Option.none => .list l
  | .dict (kv :: rest) =>
      let proc := convertChildren (kv :: rest)
      if allLeafB proc then
        .list ((sortStrs (leafNames proc)).map .str)
      else
        .dict (proc.map fun p => (p.1, wrapLeaf p.1 p.2))
termination_by structural x => x

/-- The `for k, v in data.items()` recursion of `convert_to_wildcard_format`:
converts every child value. -/
def convertChildren : List (String × PyVal) → List (String × PyVal)
  | [] => []
  | (k, v) :: rest => (k, convert_to_wildcard_format v) :: convertChildren rest
termination_by structural x => x
end

/-- Python truthiness of the values the pipeline handles: `None`, `''`,
`[]`, `{}` are falsy. -/
def pyTruthy : PyVal → Bool
  | .str s => !(s.isEmpty)
  | .none => false
  | .list l => !(l.isEmpty)
  | .dict kvs => !(kvs.isEmpty)

/-- `v == {} or v is None` (the leaf-marker test in `extract_all_leaves`,
src/app.py:132). -/
def isEmptyOrNone : PyVal → Bool
  | .dict [] => true
  | .none => true
  | _ => false

mutual
/-- `extract_all_leaves` (src/app.py:124-140): pre-order collection of the
leaf strings of a nested structure into a flat list (the collector is a
list, so duplicates are retained).  Leaves are bare strings, dict keys
whose value is `{}`/`None`, and elements of nested lists. -/
def extract_all_leaves : PyVal → List String
  | .list l => extractFromList l
  | .dict kvs => extractFromKVs kvs
  | .str s => [s]
  | .none => []
termination_by structural x => x

def extractFromList : List PyVal → List String
  | [] => []
  | x :: rest => extract_all_leaves x ++ extractFromList rest
termination_by structural x => x

def extractFromKVs : List (String × PyVal) → List String
  | [] => []
  | (k, v) :: rest =>
      (if isEmptyOrNone v then [k] else extract_all_leaves v) ++ extractFromKVs rest
termination_by structural x => x
end

mutual
/-- `flatten_hierarchy_post_process` (src/app.py:142-158), the Depth
Flattener: at `current_depth >= max_depth` the whole subtree is replaced by
the flat leaf list; below the limit dicts recurse one level deeper and
every other value is returned unchanged. -/
def flatten_hierarchy_post_process : PyVal → Nat → Nat → PyVal
  | data, currentDepth, maxDepth =>
      if maxDepth ≤ currentDepth then .list ((extract_all_leaves data).map .str)
      else
        match data with
        | .dict kvs => .dict (flattenKVs kvs currentDepth maxDepth)
        | other => other
termination_by structural x => x

def flattenKVs : List (String × PyVal) → Nat → Nat → List (String × PyVal)
  | [], _, _ => []
  | (k, v) :: rest, currentDepth, maxDepth =>
      (k, flatten_hierarchy_post_process v (currentDepth + 1) maxDepth) ::
        flattenKVs rest currentDepth maxDepth
termination_by structural x => x
end

/-!
The Lexical Graph Accessor (NLTK WordNet) is an external collaborator: the
spec exposes it as a capability interface.  `WordNet` embeds that interface.
Synsets are identified by `Nat` handles; object identity (Python `==` on
synsets) is identity of handles.  `size` is an upper bound on the number of
graph nodes, used as fuel for the transitive-closure traversal (NLTK's
`closure` is cycle-safe; with `size` at least the node count the fuelled
traversal collects exactly the reachable set, and its output only ever
feeds a sorted-set so traversal order is irrelevant).
-/

structure WordNet where
  /-- `synset.lemmas()[0].name()` (raw lemma, may contain underscores). -/
  lemma0 : Nat → String
  /-- `synset.name()` (e.g. `"dog.n.01"`). -/
  synsetName : Nat → String
  /-- `synset.pos()` rendered as a string (e.g. `"n"`). -/
  pos : Nat → String
  /-- `synset.offset()`. -/
  offset : Nat → Nat
  /-- `synset.hyponyms()`, in NLTK order. -/
  hyponyms : Nat → List Nat
  /-- `wn.synsets(word)`: all synsets for a word, primary first. -/
  synsetsOf : String → List Nat
  /-- `wn.synset(name)`; `none` models the lookup exception. -/
  synsetByName : String → Option Nat
  /-- `wn.synset_from_pos_and_offset(pos, offset)`; `none` models failure. -/
  synsetFromPosOffset : String → Nat → Option Nat
  /-- `synset.hypernym_paths()`: root-to-node paths, primary first. -/
  hypernymPaths : Nat → List (List Nat)
  /-- An upper bound on the number of graph nodes (closure fuel). -/
  size : Nat

/-- `synset.lemmas()[0].name().replace('_', ' ')` (src/app.py:281). -/
def displayName (g : WordNet) (s : Nat) : String :=
  replaceChar '_' ' ' (g.lemma0 s)

/-- Python `"%s.%s" % ...`-free zero padding: `f"{offset:08d}"`. -/
def pad8 (n : Nat) : String :=
  let t := toString n
  String.mk (List.replicate (8 - t.length) '0') ++ t

/-- `f"{synset.pos()}{synset.offset():08d}"` (src/app.py:308 etc.). -/
def wnidOf (g : WordNet) (s : Nat) : String :=
  g.pos s ++ pad8 (g.offset s)

/-- `synset.name().split('.')[0]` (src/app.py:241 and 285): the prefix of
the name before its first dot (the whole name when it has no dot). -/
def splitDotHead (s : String) : String :=
  String.mk (s.toList.takeWhile (fun c => c ≠ '.'))

/-- `get_primary_synset` (src/app.py:251-259): the first synset registered
for the word, spaces restored to underscores for the lookup. -/
def get_primary_synset (g : WordNet) (word : String) : Option Nat :=
  (g.synsetsOf (replaceChar ' ' '_' word)).head?

/-- The module-level `ABSTRACT_CATEGORIES` blacklist (src/app.py:26-30). -/
def ABSTRACT_CATEGORIES : List String :=
  ["entity", "abstraction", "communication", "measure",
   "attribute", "state", "event", "act", "group",
   "relation", "possession", "phenomenon"]

/-- Python truthiness of the optional `valid_wnids` set: `None` and the
empty set are both falsy (`if valid_wnids:` in src/app.py). -/
def setTruthy : Option (List String) → Bool
  | Option.none => false
  | some l => !(l.isEmpty)

def validList : Option (List String) → List String
  | Option.none => []
  | some l => l

/-- Fuelled cycle-safe traversal of the hyponym relation, collecting
visited nodes; models the node set enumerated by
`synset.closure(lambda s: s.hyponyms())` (NLTK's traversal skips already
seen nodes).  Only the set of collected nodes matters downstream. -/
def reachAux (g : WordNet) : Nat → Nat → List Nat → List Nat
  | 0, _, visited => visited
  | fuel + 1, s, visited =>
      (g.hyponyms s).foldl
        (fun acc c => if acc.contains c then acc else reachAux g fuel c (c :: acc))
        visited

/-- `get_all_descendants` (src/app.py:261-278): every strict descendant,
filtered through the validity set when that set is truthy, display names
collected into a sorted deduplicated list. -/
def get_all_descendants (g : WordNet) (valid : Option (List String)) (s : Nat) :
    List String :=
  let ds := (reachAux g g.size s []).filter (fun d => d ≠ s)
  let names := ds.filterMap (fun d =>
    let w := wnidOf g d
    let nm := replaceChar '_' ' ' (g.lemma0 d)
    if setTruthy valid then
      (if (validList valid).contains w then some nm else Option.none)
    else some nm)
  pySortedSet names

/-- Python `d[k] = v` on an insertion-ordered dict: update in place when
the key exists, append otherwise. -/
def dictInsert : List (String × PyVal) → String → PyVal → List (String × PyVal)
  | [], k, v => [(k, v)]
  | (k', v') :: rest, k, v =>
      if k' = k then (k, v) :: rest else (k', v') :: dictInsert rest k v

/-- `build_hierarchy_tree_recursive` (src/app.py:280-336) with the depth
arguments replaced by the remaining budget `rem = max_depth - depth`:
in natural numbers `depth >= max_depth` holds exactly when
`max_depth - depth = 0`, and each recursive call at `depth + 1` decrements
the budget, so this is the same function on the reachable arguments (see
`build_hierarchy_tree_recursive` below for the original signature).
Order of checks as in the source: blacklist, strict primary-sense filter,
depth flattening, then recursion into hyponyms. -/
def buildRem (g : WordNet) (valid : Option (List String)) (strict bl : Bool)
    (rem : Nat) (s : Nat) : Option PyVal :=
      let name := displayName g s
      if bl && ABSTRACT_CATEGORIES.contains (splitDotHead (g.synsetName s)) then
        Option.none
      else if strict &&
          (match get_primary_synset g name with
           | some p => decide (p ≠ s)
           | Option.none => false) then
        Option.none
      else
        match rem with
        | 0 =>
            let leaves := get_all_descendants g valid s
            if !(leaves.isEmpty) then some (.list (leaves.map .str))
            else if setTruthy valid then
              (if (validList valid).contains (wnidOf g s) then
                some (.list [.str name])
              else some (.list []))
            else some (.list [.str name])
        | rem' + 1 =>
            let childNodes := (g.hyponyms s).foldl
              (fun acc c =>
                match buildRem g valid strict bl rem' c with
                | some content =>
                    if pyTruthy content then
                      dictInsert acc (displayName g c) content
                    else acc
                | Option.none => acc)
              []
            if childNodes.isEmpty then
              (if setTruthy valid && !((validList valid).contains (wnidOf g s)) then
                Option.none
              else some (.str name))
            else some (.dict childNodes)

/-- `build_hierarchy_tree_recursive` with its original `(depth, max_depth)`
signature. -/
def build_hierarchy_tree_recursive (g : WordNet) (s : Nat)
    (valid : Option (List String)) (depth maxDepth : Nat) (strict bl : Bool) :
    Option PyVal :=
  buildRem g valid strict bl (maxDepth - depth) s

/-- `generate_imagenet_tree_hierarchy` (src/app.py:338-360): empty root
string falls back to `'entity.n.01'`; an unresolvable root returns `{}`;
otherwise the root's expansion is wrapped under the root's display name,
with a falsy expansion collapsing to `{}`. -/
def generate_imagenet_tree_hierarchy (g : WordNet) (rootStr : String)
    (maxDepth : Nat) (filterIds : Option (List String)) (strict bl : Bool) :
    PyVal :=
  let rootStr := if rootStr.isEmpty then "entity.n.01" else rootStr
  match g.synsetByName rootStr with
  | Option.none => .dict []
  | some root =>
      let rootName := displayName g root
      match build_hierarchy_tree_recursive g root filterIds 0 maxDepth strict bl with
      | some content =>
          if pyTruthy content then .dict [(rootName, content)] else .dict []
      | Option.none => .dict []

def parseNatAux : List Char → Nat → Option Nat
  | [], acc => some acc
  | c :: cs, acc =>
      if c.isDigit then parseNatAux cs (acc * 10 + (c.toNat - 48)) else Option.none

/-- Python `int(s)` on the strings fed to it here: a non-empty run of
decimal digits parses to its value, anything else raises (is `none`).
Python additionally accepts signs and surrounding whitespace, but such a
wnid tail never denotes a valid offset and fails resolution either way. -/
def pyInt (s : String) : Option Nat :=
  match s.toList with
  | [] => Option.none
  | cs => parseNatAux cs 0

/-- `get_synset_from_wnid` (src/app.py:207-214): parse `<pos><offset>`
(`wnid[0]` and `int(wnid[1:])`), returning `none` on malformed input
(Python catches the exception) or failed lookup. -/
def get_synset_from_wnid (g : WordNet) (wnid : String) : Option Nat :=
  if wnid.toList.length < 2 then Option.none
  else
    match pyInt (String.mk (wnid.toList.drop 1)) with
    | some off => g.synsetFromPosOffset (String.mk (wnid.toList.take 1)) off
    | Option.none => Option.none

def containsKey (k : String) : List (String × PyVal) → Bool
  | [] => false
  | (k', _) :: rest => k' = k || containsKey k rest

def updateKey (k : String) (f : PyVal → PyVal) : List (String × PyVal) →
    List (String × PyVal)
  | [] => []
  | (k', v) :: rest =>
      if k' = k then (k', f v) :: rest else (k', v) :: updateKey k f rest

/-- The path-insertion loop of `generate_imagenet_wnid_hierarchy`
(src/app.py:239-244): walk the name path, descending into an existing
entry or appending a fresh `{}` entry, one level per path element.  The
trees this loop builds only ever hold dict values; a non-dict value (on
which Python would fail at the next level) is left unchanged. -/
def insertPath : List String → List (String × PyVal) → List (String × PyVal)
  | [], t => t
  | n :: rest, t =>
      if containsKey n t then
        updateKey n
          (fun v => match v with
            | .dict sub => .dict (insertPath rest sub)
            | other => other) t
      else
        t ++ [(n, .dict (insertPath rest []))]

/-- `primary_path[-max_hypernym_depth:]` (src/app.py:235). -/
def takeLast (d : Nat) (l : List Nat) : List Nat := l.drop (l.length - d)

/-- `generate_imagenet_wnid_hierarchy` (src/app.py:216-247), the Bottom-Up
Merger: resolve each wnid (unresolvable ones are skipped), take the primary
hypernym path, optionally keep only its trailing `max_hypernym_depth`
entries, insert the path of `synset.name().split('.')[0]` names into the
shared tree, then flatten from the root at `max_depth`. -/
def generate_imagenet_wnid_hierarchy (g : WordNet) (wnids : List String)
    (maxDepth : Nat) (maxHypernymDepth : Option Nat) : PyVal :=
  if wnids.isEmpty then .dict []
  else
    let tree := wnids.foldl
      (fun t w =>
        match get_synset_from_wnid g w with
        | Option.none => t
        | some s =>
            match g.hypernymPaths s with
            | [] => t
            | p :: _ =>
                let pathToUse :=
                  match maxHypernymDepth with
                  | some d => if 0 < d then takeLast d p else p
                  | Option.none => p
                insertPath (pathToUse.map (fun n => splitDotHead (g.synsetName n))) t)
      []
    flatten_hierarchy_post_process (.dict tree) 0 maxDepth

def SortedLe (l : List String) : Prop := l.Pairwise (fun a b => strLe a b = true)

def StrictSorted (l : List String) : Prop := l.Pairwise (fun a b => strLt a b = true)

/-! ### Well-formedness, canonical shapes, and the collision condition -/

/-- Boolean no-duplicates check on a list of strings. -/
def nodupB : List String → Bool
  | [] => true
  | x :: xs => !(xs.contains x) && nodupB xs

mutual
/-- Valid intermediate trees: any nesting of empty-dict markers, bare
strings, `None`, lists of strings, and dicts — with the two properties
Python guarantees for the pipeline's data: dict keys are unique, and lists
hold only strings (`sorted(list(set(...)))` would raise otherwise). -/
def validTreeB : PyVal → Bool
  | .str _ => true
  | .none => true
  | .list l => (asStrings l).isSome
  | .dict kvs => nodupB (kvs.map Prod.fst) && validKVs kvs
termination_by structural x => x

def validKVs : List (String × PyVal) → Bool
  | [] => true
  | (_, v) :: rest => validTreeB v && validKVs rest
termination_by structural x => x
end

mutual
/-- No leaf-name collisions: in every mapping of the tree whose converted
children are all leaves, the recorded leaf values are pairwise distinct
(so the all-leaf collapse `sorted(values)` produces no duplicates). -/
def distinctLeafB : PyVal → Bool
  | .str _ => true
  | .none => true
  | .list _ => true
  | .dict kvs =>
      (!(allLeafB (convertChildren kvs)) || nodupB (leafNames (convertChildren kvs)))
        && distinctKVs kvs
termination_by structural x => x

def distinctKVs : List (String × PyVal) → Bool
  | [] => true
  | (_, v) :: rest => distinctLeafB v && distinctKVs rest
termination_by structural x => x
end

/-- Boolean strict-sortedness (adjacent strict order). -/
def strictSortedB : List String → Bool
  | [] => true
  | [_] => true
  | x :: y :: rest => strLt x y && strictSortedB (y :: rest)

/-- At least one child is kept as a subtree, or as a wrapped leaf whose
sole element differs from its key: exactly the failure of the all-leaf
test on a canonical-form dict. -/
def anyNonRedundant (kvs : List (String × PyVal)) : Bool :=
  kvs.any fun p => decide (p.2 ≠ .list [.str p.1])

mutual
/-- Canonical forms: the fixed points of the Shape Canonicalizer.  Leaf
content is canonical; a list is canonical when it is a strictly sorted
list of strings; a non-empty dict is canonical when every value is a
canonical list or non-empty canonical dict and at least one value is not
the redundant singleton of its own key. -/
def canonB : PyVal → Bool
  | .str _ => true
  | .none => true
  | .list l =>
      match asStrings l with
      | some ss => strictSortedB ss
      | Option.none => false
  | .dict [] => true
  | .dict (kv :: rest) => canonKVs (kv :: rest) && anyNonRedundant (kv :: rest)
termination_by structural x => x

def canonKVs : List (String × PyVal) → Bool
  | [] => true
  | (_, v) :: rest =>
      (match v with
       | .list _ => canonB v
       | .dict (_ :: _) => canonB v
       | _ => false) && canonKVs rest
termination_by structural x => x
end

/-- Standalone form of the per-value condition inside `canonKVs`. -/
def canonValB (v : PyVal) : Bool :=
  match v with
  | .list _ => canonB v
  | .dict (_ :: _) => canonB v
  | _ => false

/-- The leaf value recorded for a leaf child (src/app.py:90): the string
itself, or the key when the child is the `{}` marker or `None`. -/
def leafValSpec (k : String) (cv : PyVal) : String :=
  match cv with
  | .str s => s
  | _ => k

mutual
/-- Strengthened output invariant: no dict in the structure has a value
that is leaf content (`{}`, a string, or `None`). -/
def mapsNoLeafValues : PyVal → Bool
  | .str _ => true
  | .none => true
  | .list l => noLeafList l
  | .dict kvs => noLeafKVs kvs
termination_by structural x => x

def noLeafList : List PyVal → Bool
  | [] => true
  | x :: rest => mapsNoLeafValues x && noLeafList rest
termination_by structural x => x

def noLeafKVs : List (String × PyVal) → Bool
  | [] => true
  | (_, v) :: rest => !(is_leaf_content v) && mapsNoLeafValues v && noLeafKVs rest
termination_by structural x => x
end

mutual
/-- The spec's `Map` invariant: no non-empty dict anywhere in the
structure has all-leaf children. -/
def mapsNeverAllLeaf : PyVal → Bool
  | .str _ => true
  | .none => true
  | .list l => mnalList l
  | .dict [] => true
  | .dict (kv :: rest) =>
      !((kv :: rest).all fun p => is_leaf_content p.2) && mnalKVs (kv :: rest)
termination_by structural x => x

def mnalList : List PyVal → Bool
  | [] => true
  | x :: rest => mapsNeverAllLeaf x && mnalList rest
termination_by structural x => x

def mnalKVs : List (String × PyVal) → Bool
  | [] => true
  | (_, v) :: rest => mapsNeverAllLeaf v && mnalKVs rest
termination_by structural x => x
end

/-- The leaf names reachable in a nested structure, as the spec describes
them: bare strings, dict keys whose value is an empty marker (`{}`/`None`),
and elements of nested lists, through non-marker dict values. -/
inductive LeafReach : String → PyVal → Prop where
  | ofStr (s : String) : LeafReach s (.str s)
  | ofList {s : String} {x : PyVal} {l : List PyVal} :
      x ∈ l → LeafReach s x → LeafReach s (.list l)
  | ofKey {kvs : List (String × PyVal)} (k : String) (v : PyVal) :
      (k, v) ∈ kvs → isEmptyOrNone v = true → LeafReach k (.dict kvs)
  | ofDict {s : String} {kvs : List (String × PyVal)} (k : String) (v : PyVal) :
      (k, v) ∈ kvs → isEmptyOrNone v = false → LeafReach s v →
      LeafReach s (.dict kvs)

/-- A single chain of nested dicts ending in the given level. -/
def chainTrie : List String → List (String × PyVal) → List (String × PyVal)
  | [], leaves => leaves
  | n :: ns, leaves => [(n, .dict (chainTrie ns leaves))]

/-- A two-node lexical graph: node 0 (`"root"`, key `"n00000001"`) with the
single hyponym 1 (`"child"`, key `"n00000002"`, no hyponyms). -/
def g7 : WordNet :=
  { lemma0 := fun n => if n = 0 then "root" else "child"
    synsetName := fun n => if n = 0 then "root.n.01" else "child.n.01"
    pos := fun _ => "n"
    offset := fun n => n + 1
    hyponyms := fun n => if n = 0 then [1] else []
    synsetsOf := fun _ => []
    synsetByName := fun s => if s = "root.n.01" then some 0 else Option.none
    synsetFromPosOffset := fun _ _ => Option.none
    hypernymPaths := fun _ => []
    size := 2 }

/-- A graph where node 0's own display name (`"bass"`) resolves primarily
to a different node 1, while node 0 still has an expandable child 2. -/
def g6 : WordNet :=
  { lemma0 := fun n => if n = 0 then "bass" else if n = 1 then "bass" else "sea bass"
    synsetName := fun n =>
      if n = 0 then "bass.n.07" else if n = 1 then "bass.n.01" else "sea_bass.n.01"
    pos := fun _ => "n"
    offset := fun n => n + 1
    hyponyms := fun n => if n = 0 then [2] else []
    synsetsOf := fun s => if s = "bass" then [1, 0] else []
    synsetByName := fun _ => Option.none
    synsetFromPosOffset := fun _ _ => Option.none
    hypernymPaths := fun _ => []
    size := 3 }

/-- A graph with two leaf wnids whose primary hypernym paths share the
prefix `entity → animal` and end in `dog` and `cat` respectively. -/
def g8 : WordNet :=
  { lemma0 := fun _ => ""
    synsetName := fun n =>
      if n = 10 then "entity.n.01"
      else if n = 11 then "animal.n.01"
      else if n = 12 then "dog.n.01" else "cat.n.01"
    pos := fun _ => "n"
    offset := fun n => n
    hyponyms := fun _ => []
    synsetsOf := fun _ => []
    synsetByName := fun _ => Option.none
    synsetFromPosOffset := fun p off =>
      if p = "n" && off = 100 then some 12
      else if p = "n" && off = 101 then some 13 else Option.none
    hypernymPaths := fun n =>
      if n = 12 then [[10, 11, 12]] else if n = 13 then [[10, 11, 13]] else []
    size := 4 }

/-- A graph whose name lookup resolves nothing. -/
def g9 : WordNet :=
  { lemma0 := fun _ => "x"
    synsetName := fun _ => "x.n.01"
    pos := fun _ => "n"
    offset := fun n => n
    hyponyms := fun _ => []
    synsetsOf := fun _ => []
    synsetByName := fun _ => Option.none
    synsetFromPosOffset := fun _ _ => Option.none
    hypernymPaths := fun _ => []
    size := 1 }

/-- A graph where node 0 has two distinct children 1 and 2 sharing the
display name `"n"`, with distinct grandchildren `"g1"` and `"g2"`. -/
def g10 : WordNet :=
  { lemma0 := fun n =>
      if n = 0 then "p" else if n = 1 then "n" else if n = 2 then "n"
      else if n = 3 then "g1" else "g2"
    synsetName := fun n =>
      if n = 0 then "p.n.01" else if n = 1 then "n.n.01" else if n = 2 then "n.n.02"
      else if n = 3 then "g1.n.01" else "g2.n.01"
    pos := fun _ => "n"
    offset := fun n => n + 1
    hyponyms := fun n => if n = 0 then [1, 2] else if n = 1 then [3]
      else if n = 2 then [4] else []
    synsetsOf := fun _ => []
    synsetByName := fun _ => Option.none
    synsetFromPosOffset := fun _ _ => Option.none
    hypernymPaths := fun _ => []
    size := 5 }

/-! ### The string order and `sorted` -/

theorem char_eq_of_toNat_eq {a b : Char} (h : a.toNat = b.toNat) : a = b :=
  Char.eq_of_val_eq (UInt32.ext h)

theorem string_eq_of_toList_eq {a b : String} (h : a.toList = b.toList) : a = b := by
  cases a; cases b
  simp only [String.toList] at h
  exact congrArg String.mk h

theorem charsLt_cons (c d : Char) (cs ds : List Char) :
    charsLt (c :: cs) (d :: ds) =
      (if c.toNat < d.toNat then true
       else if d.toNat < c.toNat then false
       else charsLt cs ds) := rfl

theorem charsLt_irrefl : ∀ a, charsLt a a = false
  | [] => rfl
  | c :: cs => by
      rw [charsLt_cons, if_neg (lt_irrefl _), if_neg (lt_irrefl _)]
      exact charsLt_irrefl cs

theorem charsLt_asymm : ∀ a b, charsLt a b = true → charsLt b a = false
  | [], [] => by simp [charsLt]
  | [], _ :: _ => by intro _; rfl
  | _ :: _, [] => by simp [charsLt]
  | c :: cs, d :: ds => by
      intro h
      rw [charsLt_cons] at h ⊢
      rcases Nat.lt_trichotomy c.toNat d.toNat with h1 | h1 | h1
      · rw [if_neg (by omega), if_pos (by omega)]
      · rw [if_neg (by omega), if_neg (by omega)] at h ⊢
        exact charsLt_asymm cs ds h
      · rw [if_neg (by omega), if_pos (by omega)] at h
        cases h

theorem charsLt_connex : ∀ a b, charsLt a b = false → charsLt b a = false → a = b
  | [], [] => fun _ _ => rfl
  | [], _ :: _ => by intro h; cases h
  | _ :: _, [] => by intro _ h; cases h
  | c :: cs, d :: ds => by
      intro h1 h2
      rw [charsLt_cons] at h1 h2
      rcases Nat.lt_trichotomy c.toNat d.toNat with hc | hc | hc
      · rw [if_pos hc] at h1; cases h1
      · rw [if_neg (by omega), if_neg (by omega)] at h1 h2
        rw [char_eq_of_toNat_eq hc, charsLt_connex cs ds h1 h2]
      · rw [if_pos hc] at h2; cases h2

theorem charsLt_trans : ∀ a b c, charsLt a b = true → charsLt b c = true →
    charsLt a c = true
  | _, [], [] => by intro _ h; cases h
  | _, _ :: _, [] => by intro _ h; cases h
  | [], _, _ :: _ => by intro _ _; rfl
  | _ :: _, [], _ :: _ => by intro h; cases h
  | a :: as, b :: bs, c :: cs => by
      intro h1 h2
      rw [charsLt_cons] at h1 h2 ⊢
      rcases Nat.lt_trichotomy a.toNat b.toNat with ha | ha | ha <;>
        rcases Nat.lt_trichotomy b.toNat c.toNat with hb | hb | hb
      · rw [if_pos (by omega)]
      · rw [if_pos (by omega)]
      · rw [if_neg (by omega), if_pos (by omega)] at h2; cases h2
      · rw [if_pos (by omega)]
      · rw [if_neg (by omega), if_neg (by omega)] at h1 h2 ⊢
        exact charsLt_trans as bs cs h1 h2
      · rw [if_neg (by omega), if_pos (by omega)] at h2; cases h2
      · rw [if_neg (by omega), if_pos (by omega)] at h1; cases h1
      · rw [if_neg (by omega), if_pos (by omega)] at h1; cases h1
      · rw [if_neg (by omega), if_pos (by omega)] at h1; cases h1

theorem strLt_irrefl (a : String) : strLt a a = false := charsLt_irrefl _

theorem strLt_asymm {a b : String} (h : strLt a b = true) : strLt b a = false :=
  charsLt_asymm _ _ h

theorem strLt_connex {a b : String} (h1 : strLt a b = false)
    (h2 : strLt b a = false) : a = b :=
  string_eq_of_toList_eq (charsLt_connex _ _ h1 h2)

theorem strLt_trans {a b c : String} (h1 : strLt a b = true)
    (h2 : strLt b c = true) : strLt a c = true :=
  charsLt_trans _ _ _ h1 h2

theorem strLe_total (a b : String) : strLe a b = true ∨ strLe b a = true := by
  unfold strLe
  rcases h : strLt b a with _ | _
  · left; rfl
  · right; rw [strLt_asymm h]; rfl

theorem strLe_refl (a : String) : strLe a a = true := by
  unfold strLe; rw [strLt_irrefl]; rfl

theorem strLe_of_strLt {a b : String} (h : strLt a b = true) : strLe a b = true := by
  unfold strLe; rw [strLt_asymm h]; rfl

theorem strLe_antisymm {a b : String} (h1 : strLe a b = true)
    (h2 : strLe b a = true) : a = b := by
  unfold strLe at h1 h2
  exact (strLt_connex (by simpa using h2) (by simpa using h1))

theorem strLt_of_strLe_ne {a b : String} (h1 : strLe a b = true) (h2 : a ≠ b) :
    strLt a b = true := by
  unfold strLe at h1
  rcases h : strLt a b with _ | _
  · exact absurd (strLt_connex h (by simpa using h1)) h2
  · rfl

theorem strLe_trans {a b c : String} (h1 : strLe a b = true)
    (h2 : strLe b c = true) : strLe a c = true := by
  unfold strLe at h1 h2 ⊢
  rcases h : strLt c a with _ | _
  · rfl
  · exfalso
    rcases hab : strLt a b with _ | _
    · rcases (strLt_connex hab (by simpa using h1)) with rfl
      rw [h] at h2
      cases h2
    · rw [strLt_trans h hab] at h2
      cases h2

/-! Sortedness of `sortStrs` (Python `sorted`). -/

theorem mem_insertStr {x a : String} : ∀ {l : List String},
    a ∈ insertStr x l ↔ a = x ∨ a ∈ l
  | [] => by simp [insertStr]
  | y :: ys => by
      unfold insertStr
      split
      · simp [List.mem_cons, or_comm, or_assoc, or_left_comm]
      · simp only [List.mem_cons, @mem_insertStr x a ys]
        tauto

theorem insertStr_perm (x : String) : ∀ (l : List String),
    (insertStr x l).Perm (x :: l)
  | [] => List.Perm.refl _
  | y :: ys => by
      unfold insertStr
      split
      · exact List.Perm.refl _
      · exact ((insertStr_perm x ys).cons y).trans (List.Perm.swap x y ys)

theorem sortStrs_perm : ∀ l : List String, (sortStrs l).Perm l
  | [] => List.Perm.refl _
  | x :: xs => by
      have : sortStrs (x :: xs) = insertStr x (sortStrs xs) := rfl
      rw [this]
      exact (insertStr_perm x (sortStrs xs)).trans ((sortStrs_perm xs).cons x)

theorem insertStr_sorted {x : String} : ∀ {l : List String}, SortedLe l →
    SortedLe (insertStr x l)
  | [], _ => List.pairwise_singleton _ _
  | y :: ys, h => by
      unfold insertStr
      rcases List.pairwise_cons.mp h with ⟨hy, hys⟩
      split
      · refine List.pairwise_cons.mpr ⟨?_, h⟩
        intro b hb
        rcases List.mem_cons.mp hb with rfl | hb
        · assumption
        · exact strLe_trans (by assumption) (hy b hb)
      · rename_i hxy
        refine List.pairwise_cons.mpr ⟨?_, insertStr_sorted hys⟩
        intro b hb
        rcases mem_insertStr.mp hb with rfl | hb
        · rcases strLe_total b y with ht | ht
          · exact absurd ht hxy
          · exact ht
        · exact hy b hb

theorem sortStrs_sorted : ∀ l : List String, SortedLe (sortStrs l)
  | [] => List.Pairwise.nil
  | _ :: xs => insertStr_sorted (sortStrs_sorted xs)

theorem insertStr_of_le {x y : String} (ys : List String)
    (h : strLe x y = true) : insertStr x (y :: ys) = x :: y :: ys := by
  unfold insertStr
  rw [if_pos h]

theorem sortStrs_eq_self : ∀ {l : List String}, SortedLe l → sortStrs l = l
  | [], _ => rfl
  | x :: xs, h => by
      rcases List.pairwise_cons.mp h with ⟨hx, hxs⟩
      have hrec : sortStrs (x :: xs) = insertStr x (sortStrs xs) := rfl
      rw [hrec, sortStrs_eq_self hxs]
      cases xs with
      | nil => rfl
      | cons y ys => exact insertStr_of_le ys (hx y (List.mem_cons_self y ys))

theorem StrictSorted.sortedLe {l : List String} (h : StrictSorted l) : SortedLe l :=
  h.imp fun hab => strLe_of_strLt hab

theorem StrictSorted.nodup {l : List String} (h : StrictSorted l) : l.Nodup :=
  h.imp fun hab => by
    intro he
    rw [he, strLt_irrefl] at hab
    cases hab

theorem strictSorted_of_sortedLe_nodup {l : List String} (h1 : SortedLe l)
    (h2 : l.Nodup) : StrictSorted l :=
  (h1.and h2).imp fun hab => strLt_of_strLe_ne hab.1 hab.2

theorem sortStrs_nodup {l : List String} (h : l.Nodup) : (sortStrs l).Nodup :=
  ((sortStrs_perm l).nodup_iff).mpr h

theorem sortStrs_strictSorted {l : List String} (h : l.Nodup) :
    StrictSorted (sortStrs l) :=
  strictSorted_of_sortedLe_nodup (sortStrs_sorted l) (sortStrs_nodup h)

theorem pySortedSet_strictSorted (l : List String) : StrictSorted (pySortedSet l) :=
  sortStrs_strictSorted (List.nodup_dedup l)

theorem pySortedSet_eq_self {l : List String} (h : StrictSorted l) :
    pySortedSet l = l := by
  unfold pySortedSet
  rw [List.dedup_eq_self.mpr h.nodup, sortStrs_eq_self h.sortedLe]

theorem mem_sortStrs {a : String} {l : List String} : a ∈ sortStrs l ↔ a ∈ l :=
  (sortStrs_perm l).mem_iff

theorem mem_pySortedSet {a : String} {l : List String} :
    a ∈ pySortedSet l ↔ a ∈ l := by
  unfold pySortedSet
  rw [mem_sortStrs, List.mem_dedup]

/-- Structural induction for `PyVal` with memberwise hypotheses for the
nested lists. -/
theorem pyval_induction {P : PyVal → Prop}
    (hstr : ∀ s, P (.str s)) (hnone : P PyVal.none)
    (hlist : ∀ l, (∀ x ∈ l, P x) → P (.list l))
    (hdict : ∀ kvs, (∀ p ∈ kvs, P p.2) → P (.dict kvs)) : ∀ x, P x
  | .str s => hstr s
  | .none => hnone
  | .list l =>
      hlist l (fun y _ => pyval_induction hstr hnone hlist hdict y)
  | .dict kvs =>
      hdict kvs (fun p _ => pyval_induction hstr hnone hlist hdict p.2)
termination_by x => sizeOf x
decreasing_by
  · rename_i hy
    have := List.sizeOf_lt_of_mem hy
    simp only [PyVal.list.sizeOf_spec]
    omega
  · rename_i hp
    have h1 := List.sizeOf_lt_of_mem hp
    have h2 : sizeOf p.2 < sizeOf p := by
      cases p with
      | mk a b =>
          simp
          try omega
    simp only [PyVal.dict.sizeOf_spec]
    omega

theorem nodupB_iff : ∀ {l : List String}, nodupB l = true ↔ l.Nodup
  | [] => by simp [nodupB]
  | x :: xs => by
      simp [nodupB, @nodupB_iff xs, List.nodup_cons]

theorem strictSortedB_cons : ∀ {x : String} {l : List String},
    strictSortedB (x :: l) = true ↔
      ((∀ y, l.head? = some y → strLt x y = true) ∧ strictSortedB l = true)
  | _, [] => by simp [strictSortedB]
  | _, y :: rest => by simp [strictSortedB, and_comm]

theorem strictSortedB_iff : ∀ {l : List String},
    strictSortedB l = true ↔ StrictSorted l
  | [] => by simp [strictSortedB, StrictSorted]
  | [_] => by simp [strictSortedB, StrictSorted]
  | x :: y :: rest => by
      rw [StrictSorted, List.pairwise_cons]
      constructor
      · intro h
        have h1 : strLt x y = true := by
          simp [strictSortedB] at h
          exact h.1
        have h2 : strictSortedB (y :: rest) = true := by
          simp [strictSortedB] at h
          simpa [strictSortedB] using h.2
        have hrest := strictSortedB_iff.mp h2
        refine ⟨?_, hrest⟩
        intro b hb
        rcases List.mem_cons.mp hb with rfl | hb
        · exact h1
        · exact strLt_trans h1 ((List.pairwise_cons.mp hrest).1 b hb)
      · intro ⟨hx, hrest⟩
        have h2 := strictSortedB_iff.mpr hrest
        simp [strictSortedB] at h2 ⊢
        exact ⟨hx y (List.mem_cons_self y rest), by simpa [strictSortedB] using h2⟩

theorem asStrings_map_str : ∀ ss : List String, asStrings (ss.map .str) = some ss
  | [] => rfl
  | s :: rest => by simp [asStrings, asStrings_map_str rest]

theorem asStrings_eq : ∀ {l : List PyVal} {ss : List String},
    asStrings l = some ss → l = ss.map PyVal.str
  | [], ss => by
      intro h
      simp [asStrings] at h
      simp [← h]
  | .str s :: rest, ss => by
      intro h
      simp only [asStrings, Option.map_eq_some'] at h
      obtain ⟨ts, hts, rfl⟩ := h
      simp [asStrings_eq hts]
  | .none :: rest, ss => by intro h; cases h
  | .list _ :: rest, ss => by intro h; cases h
  | .dict _ :: rest, ss => by intro h; cases h

theorem convertChildren_eq_map : ∀ kvs : List (String × PyVal),
    convertChildren kvs = kvs.map (fun p => (p.1, convert_to_wildcard_format p.2))
  | [] => rfl
  | (k, v) :: rest => by
      simp [convertChildren, convertChildren_eq_map rest]

theorem canonKVs_iff : ∀ {kvs : List (String × PyVal)},
    canonKVs kvs = true ↔ ∀ p ∈ kvs, canonValB p.2 = true
  | [] => by simp [canonKVs]
  | (k, v) :: rest => by
      simp only [canonKVs, Bool.and_eq_true, @canonKVs_iff rest]
      constructor
      · rintro ⟨h1, h2⟩ p hp
        rcases List.mem_cons.mp hp with rfl | hp
        · exact h1
        · exact h2 p hp
      · intro h
        exact ⟨h (k, v) (List.mem_cons_self _ _), fun p hp => h p (List.mem_cons_of_mem _ hp)⟩

theorem validKVs_iff : ∀ {kvs : List (String × PyVal)},
    validKVs kvs = true ↔ ∀ p ∈ kvs, validTreeB p.2 = true
  | [] => by simp [validKVs]
  | (k, v) :: rest => by
      simp only [validKVs, Bool.and_eq_true, @validKVs_iff rest]
      constructor
      · rintro ⟨h1, h2⟩ p hp
        rcases List.mem_cons.mp hp with rfl | hp
        · exact h1
        · exact h2 p hp
      · intro h
        exact ⟨h (k, v) (List.mem_cons_self _ _), fun p hp => h p (List.mem_cons_of_mem _ hp)⟩

theorem distinctKVs_iff : ∀ {kvs : List (String × PyVal)},
    distinctKVs kvs = true ↔ ∀ p ∈ kvs, distinctLeafB p.2 = true
  | [] => by simp [distinctKVs]
  | (k, v) :: rest => by
      simp only [distinctKVs, Bool.and_eq_true, @distinctKVs_iff rest]
      constructor
      · rintro ⟨h1, h2⟩ p hp
        rcases List.mem_cons.mp hp with rfl | hp
        · exact h1
        · exact h2 p hp
      · intro h
        exact ⟨h (k, v) (List.mem_cons_self _ _), fun p hp => h p (List.mem_cons_of_mem _ hp)⟩

theorem cf_list_eq (l : List PyVal) :
    convert_to_wildcard_format (.list l) =
      (match asStrings l with
       | some ss => .list ((pySortedSet ss).map .str)
       | Option.none => .list l) := rfl

theorem cf_dict_cons (kv : String × PyVal) (rest : List (String × PyVal)) :
    convert_to_wildcard_format (.dict (kv :: rest)) =
      (if allLeafB (convertChildren (kv :: rest)) then
        .list ((sortStrs (leafNames (convertChildren (kv :: rest)))).map .str)
      else
        .dict ((convertChildren (kv :: rest)).map fun p => (p.1, wrapLeaf p.1 p.2))) :=
  rfl

theorem canonValB_canon {v : PyVal} (h : canonValB v = true) : canonB v = true := by
  cases v with
  | str s => cases h
  | none => cases h
  | list l => exact h
  | dict kvs => cases kvs with
      | nil => cases h
      | cons kv rest => exact h

theorem canonVal_shape {v : PyVal} (h : canonValB v = true) :
    (∃ l, v = .list l) ∨ ∃ kv rest, v = .dict (kv :: rest) := by
  cases v with
  | str s => cases h
  | none => cases h
  | list l => exact Or.inl ⟨l, rfl⟩
  | dict kvs => cases kvs with
      | nil => cases h
      | cons kv rest => exact Or.inr ⟨kv, rest, rfl⟩

theorem leafNameOf_singleton_key (k : String) :
    leafNameOf k (.list [.str k]) = some k := by
  simp [leafNameOf]

theorem canonVal_leaf_iff {k : String} {v : PyVal} (h : canonValB v = true) :
    (leafNameOf k v).isSome = true ↔ v = .list [.str k] := by
  rcases canonVal_shape h with ⟨l, rfl⟩ | ⟨kv, rest, rfl⟩
  · match l with
    | [] => simp [leafNameOf]
    | [PyVal.str s] =>
        constructor
        · intro hs
          simp only [leafNameOf] at hs
          split at hs
          · simp [*]
          · cases hs
        · rintro h2
          cases h2
          simp [leafNameOf]
    | [PyVal.none] => simp [leafNameOf]
    | [PyVal.list _] => simp [leafNameOf]
    | [PyVal.dict _] => simp [leafNameOf]
    | x :: y :: rest => simp [leafNameOf]
  · simp [leafNameOf]

/-- The Shape Canonicalizer is the identity on canonical forms. -/
theorem convert_eq_self_of_canon : ∀ x, canonB x = true →
    convert_to_wildcard_format x = x := by
  intro x
  induction x using pyval_induction with
  | hstr s => intro _; rfl
  | hnone => intro _; rfl
  | hlist l ih =>
      intro h
      rcases has : asStrings l with _ | ss
      · rw [canonB] at h
        rw [has] at h
        cases h
      · rw [canonB] at h
        rw [has] at h
        have hss : strictSortedB ss = true := h
        rw [cf_list_eq, has]
        show PyVal.list ((pySortedSet ss).map .str) = PyVal.list l
        rw [pySortedSet_eq_self (strictSortedB_iff.mp hss), ← asStrings_eq has]
  | hdict kvs ih =>
      intro h
      cases kvs with
      | nil => rfl
      | cons kv rest =>
          rw [canonB] at h
          simp only [Bool.and_eq_true] at h
          rcases h with ⟨hkvs, hanr⟩
          have hvals := canonKVs_iff.mp hkvs
          have hcc : convertChildren (kv :: rest) = kv :: rest := by
            rw [convertChildren_eq_map]
            have : ∀ p ∈ kv :: rest,
                (fun p : String × PyVal => (p.1, convert_to_wildcard_format p.2)) p = p := by
              intro p hp
              have := ih p hp (canonValB_canon (hvals p hp))
              simp [this]
            rw [List.map_congr_left this]
            simp
          have hnotall : allLeafB (kv :: rest) = false := by
            rcases hal : allLeafB (kv :: rest) with _ | _
            · rfl
            · exfalso
              have hall := List.all_eq_true.mp hal
              have heq : ∀ p ∈ kv :: rest, p.2 = PyVal.list [.str p.1] := by
                intro p hp
                exact (canonVal_leaf_iff (hvals p hp)).mp (hall p hp)
              have := List.any_eq_true.mp hanr
              obtain ⟨p, hp, hne⟩ := this
              exact (of_decide_eq_true hne) (heq p hp)
          rw [cf_dict_cons, hcc, hnotall]
          simp only [Bool.false_eq_true, if_false]
          have : ∀ p ∈ kv :: rest,
              (fun p : String × PyVal => (p.1, wrapLeaf p.1 p.2)) p = p := by
            intro p hp
            rcases hln : leafNameOf p.1 p.2 with _ | n
            · simp [wrapLeaf, hln]
            · have hsome : (leafNameOf p.1 p.2).isSome = true := by rw [hln]; rfl
              have hp2 := (canonVal_leaf_iff (hvals p hp)).mp hsome
              rw [hp2] at hln
              rw [leafNameOf_singleton_key] at hln
              cases hln
              simp only [wrapLeaf, hp2, leafNameOf_singleton_key]
              rw [← hp2]
          rw [List.map_congr_left this]
          simp

theorem leafNameOf_none_shape {k : String} {v : PyVal}
    (h : leafNameOf k v = Option.none) :
    (∃ l, v = .list l) ∨ ∃ q qs, v = .dict (q :: qs) := by
  cases v with
  | str s => cases h
  | none => cases h
  | list l => exact Or.inl ⟨l, rfl⟩
  | dict kvs => cases kvs with
      | nil => cases h
      | cons q qs => exact Or.inr ⟨q, qs, rfl⟩

theorem leafNameOf_none_ne {k : String} {v : PyVal}
    (h : leafNameOf k v = Option.none) : v ≠ .list [.str k] := by
  intro he
  rw [he, leafNameOf_singleton_key] at h
  cases h

theorem canonB_singleton (n : String) : canonB (.list [.str n]) = true := by
  have := asStrings_map_str [n]
  simp only [List.map] at this
  rw [canonB, this]
  rfl

theorem canonB_strs_sorted {ss : List String} (h : StrictSorted ss) :
    canonB (.list (ss.map .str)) = true := by
  rw [canonB, asStrings_map_str]
  exact strictSortedB_iff.mpr h

theorem canonValB_list (l : List PyVal) :
    canonValB (.list l) = canonB (.list l) := rfl

theorem canonValB_dict_cons (q : String × PyVal) (qs : List (String × PyVal)) :
    canonValB (.dict (q :: qs)) = canonB (.dict (q :: qs)) := rfl

theorem canonB_dict_nonempty {kvs : List (String × PyVal)} (hne : kvs ≠ [])
    (h1 : canonKVs kvs = true) (h2 : anyNonRedundant kvs = true) :
    canonB (.dict kvs) = true := by
  cases kvs with
  | nil => exact absurd rfl hne
  | cons q qs =>
      rw [canonB, h1, h2]
      rfl

theorem canonKVs_map_wrap {kvs : List (String × PyVal)}
    (h : ∀ p ∈ kvs, canonValB (wrapLeaf p.1 p.2) = true) :
    canonKVs (kvs.map fun p => (p.1, wrapLeaf p.1 p.2)) = true := by
  rw [canonKVs_iff]
  intro q hq
  rw [List.mem_map] at hq
  obtain ⟨p, hp, rfl⟩ := hq
  exact h p hp

theorem anyNonRedundant_map_wrap {kvs : List (String × PyVal)} {p : String × PyVal}
    (hp : p ∈ kvs) (hne : wrapLeaf p.1 p.2 ≠ .list [.str p.1]) :
    anyNonRedundant (kvs.map fun q => (q.1, wrapLeaf q.1 q.2)) = true := by
  rw [anyNonRedundant, List.any_eq_true]
  exact ⟨(p.1, wrapLeaf p.1 p.2), List.mem_map_of_mem _ hp, decide_eq_true hne⟩

theorem allLeafB_false_witness {proc : List (String × PyVal)}
    (hal : allLeafB proc = false) :
    ∃ p ∈ proc, leafNameOf p.1 p.2 = Option.none := by
  rw [allLeafB] at hal
  rcases List.all_eq_false.mp hal with ⟨p, hpmem, hpn⟩
  refine ⟨p, hpmem, ?_⟩
  rcases hln : leafNameOf p.1 p.2 with _ | n
  · rfl
  · exfalso
    apply hpn
    rw [hln]
    rfl

/-- On valid trees with no leaf-name collisions, the Shape Canonicalizer
produces a canonical form. -/
theorem canon_of_convert : ∀ x, validTreeB x = true → distinctLeafB x = true →
    canonB (convert_to_wildcard_format x) = true := by
  intro x
  induction x using pyval_induction with
  | hstr s => intro _ _; rfl
  | hnone => intro _ _; rfl
  | hlist l ih =>
      intro hv _
      rw [validTreeB] at hv
      rcases has : asStrings l with _ | ss
      · rw [has] at hv; cases hv
      · rw [cf_list_eq, has]
        show canonB (.list ((pySortedSet ss).map .str)) = true
        exact canonB_strs_sorted (pySortedSet_strictSorted ss)
  | hdict kvs ih =>
      intro hv hd
      cases kvs with
      | nil => rfl
      | cons kv rest =>
          rw [validTreeB] at hv
          simp only [Bool.and_eq_true] at hv
          rcases hv with ⟨hkeys, hvkvs⟩
          rw [distinctLeafB] at hd
          simp only [Bool.and_eq_true] at hd
          rcases hd with ⟨hdistinct, hdkvs⟩
          have hvals := validKVs_iff.mp hvkvs
          have hdists := distinctKVs_iff.mp hdkvs
          rw [cf_dict_cons]
          rcases hal : allLeafB (convertChildren (kv :: rest)) with _ | _
          · -- mixed branch
            rw [if_neg (by simp [hal])]
            apply canonB_dict_nonempty
            · obtain ⟨k, v⟩ := kv
              intro hemp
              have : convertChildren ((k, v) :: rest) =
                  (k, convert_to_wildcard_format v) :: convertChildren rest := rfl
              rw [this] at hemp
              cases hemp
            · apply canonKVs_map_wrap
              intro p hp
              rw [convertChildren_eq_map, List.mem_map] at hp
              obtain ⟨r, hrmem, rfl⟩ := hp
              simp only
              rcases hln : leafNameOf r.1 (convert_to_wildcard_format r.2) with _ | n
              · -- subtree child: canonical by the inductive hypothesis
                have hcanon := ih r hrmem (hvals r hrmem) (hdists r hrmem)
                rw [wrapLeaf, hln]
                rcases leafNameOf_none_shape hln with ⟨l, hl⟩ | ⟨q, qs, hq⟩
                · rw [hl, canonValB_list, ← hl]
                  exact hcanon
                · rw [hq, canonValB_dict_cons, ← hq]
                  exact hcanon
              · -- leaf child: wrapped singleton
                rw [wrapLeaf, hln, canonValB_list]
                exact canonB_singleton n
            · obtain ⟨p, hpmem, hpln⟩ := allLeafB_false_witness hal
              apply anyNonRedundant_map_wrap hpmem
              rw [wrapLeaf, hpln]
              exact leafNameOf_none_ne hpln
          · -- all-leaf branch: sorted list of the distinct leaf names
            rw [if_pos (by simp [hal])]
            have hnd : nodupB (leafNames (convertChildren (kv :: rest))) = true := by
              rcases Bool.or_eq_true_iff.mp hdistinct with hf | ht
              · rw [hal] at hf; cases hf
              · exact ht
            exact canonB_strs_sorted
              (sortStrs_strictSorted (nodupB_iff.mp hnd))

theorem leafNameOf_of_leaf {k : String} {cv : PyVal}
    (h : is_leaf_content cv = true) : leafNameOf k cv = some (leafValSpec k cv) := by
  cases cv with
  | str s => rfl
  | none => rfl
  | list l => cases h
  | dict kvs => cases kvs with
      | nil => rfl
      | cons q qs => cases h

theorem filterMap_eq_map_of_some {α β : Type} {f : α → Option β} {g : α → β}
    : ∀ {l : List α}, (∀ x ∈ l, f x = some (g x)) → l.filterMap f = l.map g
  | [], _ => rfl
  | x :: xs, h => by
      rw [List.filterMap_cons, h x (List.mem_cons_self _ _), List.map_cons,
        filterMap_eq_map_of_some (fun y hy => h y (List.mem_cons_of_mem _ hy))]

/-- All-leaf collapse: a non-empty mapping whose children all canonicalize
to leaf content becomes the sorted (but not deduplicated) list of the
children's leaf values. -/
theorem all_leaf_collapse (kvs : List (String × PyVal)) (hne : kvs ≠ [])
    (hleaf : ∀ p ∈ kvs, is_leaf_content (convert_to_wildcard_format p.2) = true) :
    convert_to_wildcard_format (.dict kvs) =
      .list ((sortStrs (kvs.map fun p =>
        leafValSpec p.1 (convert_to_wildcard_format p.2))).map .str) := by
  cases kvs with
  | nil => exact absurd rfl hne
  | cons kv rest =>
      have hnames : ∀ p ∈ convertChildren (kv :: rest),
          leafNameOf p.1 p.2 =
            some (leafValSpec p.1 p.2) := by
        intro p hp
        rw [convertChildren_eq_map, List.mem_map] at hp
        obtain ⟨r, hrmem, rfl⟩ := hp
        exact leafNameOf_of_leaf (hleaf r hrmem)
      have hall : allLeafB (convertChildren (kv :: rest)) = true := by
        rw [allLeafB, List.all_eq_true]
        intro p hp
        rw [hnames p hp]
        rfl
      rw [cf_dict_cons, if_pos (by simp [hall])]
      congr 1
      congr 1
      congr 1
      rw [leafNames, filterMap_eq_map_of_some hnames, convertChildren_eq_map,
        List.map_map]
      rfl

theorem noLeafList_iff : ∀ {l : List PyVal},
    noLeafList l = true ↔ ∀ x ∈ l, mapsNoLeafValues x = true
  | [] => by simp [noLeafList]
  | x :: rest => by
      simp only [noLeafList, Bool.and_eq_true, @noLeafList_iff rest]
      constructor
      · rintro ⟨h1, h2⟩ y hy
        rcases List.mem_cons.mp hy with rfl | hy
        · exact h1
        · exact h2 y hy
      · intro h
        exact ⟨h x (List.mem_cons_self _ _), fun y hy => h y (List.mem_cons_of_mem _ hy)⟩

theorem noLeafKVs_iff : ∀ {kvs : List (String × PyVal)},
    noLeafKVs kvs = true ↔
      ∀ p ∈ kvs, is_leaf_content p.2 = false ∧ mapsNoLeafValues p.2 = true
  | [] => by simp [noLeafKVs]
  | (k, v) :: rest => by
      simp only [noLeafKVs, Bool.and_eq_true, @noLeafKVs_iff rest,
        Bool.not_eq_true']
      constructor
      · rintro ⟨⟨h0, h1⟩, h2⟩ p hp
        rcases List.mem_cons.mp hp with rfl | hp
        · exact ⟨h0, h1⟩
        · exact h2 p hp
      · intro h
        refine ⟨⟨(h (k, v) (List.mem_cons_self _ _)).1,
          (h (k, v) (List.mem_cons_self _ _)).2⟩,
          fun p hp => h p (List.mem_cons_of_mem _ hp)⟩

theorem noLeafList_strs : ∀ ss : List String, noLeafList (ss.map .str) = true
  | [] => rfl
  | s :: rest => by
      simp only [List.map_cons, noLeafList, Bool.and_eq_true]
      exact ⟨rfl, noLeafList_strs rest⟩

theorem leafNameOf_none_not_leaf {k : String} {v : PyVal}
    (h : leafNameOf k v = Option.none) : is_leaf_content v = false := by
  cases v with
  | str s => cases h
  | none => cases h
  | list l => rfl
  | dict kvs => cases kvs with
      | nil => cases h
      | cons q qs => rfl

/-- The canonicalizer's output never stores leaf content as a dict value. -/
theorem cf_mapsNoLeafValues : ∀ x, validTreeB x = true →
    mapsNoLeafValues (convert_to_wildcard_format x) = true := by
  intro x
  induction x using pyval_induction with
  | hstr s => intro _; rfl
  | hnone => intro _; rfl
  | hlist l ih =>
      intro hv
      rw [validTreeB] at hv
      rcases has : asStrings l with _ | ss
      · rw [has] at hv; cases hv
      · rw [cf_list_eq, has]
        show mapsNoLeafValues (.list ((pySortedSet ss).map .str)) = true
        rw [mapsNoLeafValues]
        exact noLeafList_strs _
  | hdict kvs ih =>
      intro hv
      cases kvs with
      | nil => rfl
      | cons kv rest =>
          rw [validTreeB] at hv
          simp only [Bool.and_eq_true] at hv
          rcases hv with ⟨hkeys, hvkvs⟩
          have hvals := validKVs_iff.mp hvkvs
          rw [cf_dict_cons]
          rcases hal : allLeafB (convertChildren (kv :: rest)) with _ | _
          · rw [if_neg (by simp [hal])]
            rw [mapsNoLeafValues, noLeafKVs_iff]
            intro q hq
            rw [List.mem_map] at hq
            obtain ⟨p, hpmem, rfl⟩ := hq
            rw [convertChildren_eq_map, List.mem_map] at hpmem
            obtain ⟨r, hrmem, rfl⟩ := hpmem
            simp only
            rcases hln : leafNameOf r.1 (convert_to_wildcard_format r.2) with _ | n
            · rw [wrapLeaf, hln]
              exact ⟨leafNameOf_none_not_leaf hln, ih r hrmem (hvals r hrmem)⟩
            · rw [wrapLeaf, hln]
              refine ⟨rfl, ?_⟩
              rw [mapsNoLeafValues]
              exact noLeafList_strs [n]
          · rw [if_pos (by simp [hal])]
            rw [mapsNoLeafValues]
            exact noLeafList_strs _

theorem mnalKVs_iff : ∀ {kvs : List (String × PyVal)},
    mnalKVs kvs = true ↔ ∀ p ∈ kvs, mapsNeverAllLeaf p.2 = true
  | [] => by simp [mnalKVs]
  | (k, v) :: rest => by
      simp only [mnalKVs, Bool.and_eq_true, @mnalKVs_iff rest]
      constructor
      · rintro ⟨h1, h2⟩ p hp
        rcases List.mem_cons.mp hp with rfl | hp
        · exact h1
        · exact h2 p hp
      · intro h
        exact ⟨h (k, v) (List.mem_cons_self _ _), fun p hp => h p (List.mem_cons_of_mem _ hp)⟩

theorem mnalList_iff : ∀ {l : List PyVal},
    mnalList l = true ↔ ∀ x ∈ l, mapsNeverAllLeaf x = true
  | [] => by simp [mnalList]
  | x :: rest => by
      simp only [mnalList, Bool.and_eq_true, @mnalList_iff rest]
      constructor
      · rintro ⟨h1, h2⟩ y hy
        rcases List.mem_cons.mp hy with rfl | hy
        · exact h1
        · exact h2 y hy
      · intro h
        exact ⟨h x (List.mem_cons_self _ _), fun y hy => h y (List.mem_cons_of_mem _ hy)⟩

/-- A structure with no leaf-content dict values a fortiori has no
non-empty dict with all-leaf children. -/
theorem mnal_of_noLeaf : ∀ x, mapsNoLeafValues x = true →
    mapsNeverAllLeaf x = true := by
  intro x
  induction x using pyval_induction with
  | hstr s => intro _; rfl
  | hnone => intro _; rfl
  | hlist l ih =>
      intro h
      rw [mapsNoLeafValues] at h
      rw [mapsNeverAllLeaf, mnalList_iff]
      intro y hy
      exact ih y hy (noLeafList_iff.mp h y hy)
  | hdict kvs ih =>
      intro h
      cases kvs with
      | nil => rfl
      | cons kv rest =>
          rw [mapsNoLeafValues] at h
          have hall := noLeafKVs_iff.mp h
          rw [mapsNeverAllLeaf]
          simp only [Bool.and_eq_true]
          constructor
          · rw [Bool.not_eq_true', List.all_eq_false]
            exact ⟨kv, List.mem_cons_self _ _,
              by rw [(hall kv (List.mem_cons_self _ _)).1]; exact Bool.false_ne_true⟩
          · rw [mnalKVs_iff]
            intro p hp
            exact ih p hp (hall p hp).2

theorem extractFromKVs_cons (k : String) (v : PyVal) (rest : List (String × PyVal)) :
    extractFromKVs ((k, v) :: rest) =
      (if isEmptyOrNone v then [k] else extract_all_leaves v) ++ extractFromKVs rest :=
  rfl

theorem mem_extractFromList {s : String} : ∀ {l : List PyVal},
    s ∈ extractFromList l ↔ ∃ x ∈ l, s ∈ extract_all_leaves x
  | [] => by simp [extractFromList]
  | x :: rest => by
      simp only [extractFromList, List.mem_append,
        @mem_extractFromList s rest]
      constructor
      · rintro (h | ⟨y, hy, hmem⟩)
        · exact ⟨x, List.mem_cons_self _ _, h⟩
        · exact ⟨y, List.mem_cons_of_mem _ hy, hmem⟩
      · rintro ⟨y, hy, hmem⟩
        rcases List.mem_cons.mp hy with rfl | hy
        · exact Or.inl hmem
        · exact Or.inr ⟨y, hy, hmem⟩

theorem mem_extractFromKVs {s : String} : ∀ {kvs : List (String × PyVal)},
    s ∈ extractFromKVs kvs ↔
      ∃ p ∈ kvs, (isEmptyOrNone p.2 = true ∧ s = p.1) ∨
        (isEmptyOrNone p.2 = false ∧ s ∈ extract_all_leaves p.2)
  | [] => by simp [extractFromKVs]
  | (k, v) :: rest => by
      rw [extractFromKVs_cons]
      simp only [List.mem_append, @mem_extractFromKVs s rest]
      constructor
      · rintro (h | ⟨p, hp, hor⟩)
        · rcases he : isEmptyOrNone v with _ | _
          · rw [if_neg (by simp [he])] at h
            exact ⟨(k, v), List.mem_cons_self _ _, Or.inr ⟨he, h⟩⟩
          · rw [if_pos (by simp [he])] at h
            exact ⟨(k, v), List.mem_cons_self _ _,
              Or.inl ⟨he, List.mem_singleton.mp h⟩⟩
        · exact ⟨p, List.mem_cons_of_mem _ hp, hor⟩
      · rintro ⟨p, hp, hor⟩
        rcases List.mem_cons.mp hp with rfl | hp
        · rcases hor with ⟨he, rfl⟩ | ⟨he, hmem⟩
          · exact Or.inl (by rw [if_pos (by simp [he])]; exact List.mem_singleton_self _)
          · exact Or.inl (by rw [if_neg (by simp [he])]; exact hmem)
        · exact Or.inr ⟨p, hp, hor⟩

/-- `extract_all_leaves` collects exactly the reachable leaf names. -/
theorem mem_extract_iff : ∀ (x : PyVal) (s : String),
    s ∈ extract_all_leaves x ↔ LeafReach s x := by
  intro x
  induction x using pyval_induction with
  | hstr t =>
      intro s
      rw [extract_all_leaves]
      constructor
      · intro h
        rcases List.mem_singleton.mp h with rfl
        exact LeafReach.ofStr s
      · intro h
        cases h
        exact List.mem_singleton_self _
  | hnone =>
      intro s
      rw [extract_all_leaves]
      constructor
      · intro h; cases h
      · intro h; cases h
  | hlist l ih =>
      intro s
      rw [extract_all_leaves, mem_extractFromList]
      constructor
      · rintro ⟨x, hx, hmem⟩
        exact LeafReach.ofList hx ((ih x hx s).mp hmem)
      · intro h
        cases h with
        | ofList hx hreach => exact ⟨_, hx, (ih _ hx s).mpr hreach⟩
  | hdict kvs ih =>
      intro s
      rw [extract_all_leaves, mem_extractFromKVs]
      constructor
      · rintro ⟨p, hp, ⟨he, rfl⟩ | ⟨he, hmem⟩⟩
        · exact LeafReach.ofKey p.1 p.2 (by rwa [Prod.mk.eta]) he
        · exact LeafReach.ofDict p.1 p.2 (by rwa [Prod.mk.eta]) he
            ((ih p hp s).mp hmem)
      · intro h
        cases h with
        | ofKey a b hkv he => exact ⟨_, hkv, Or.inl ⟨he, rfl⟩⟩
        | ofDict a b hkv he hreach =>
            exact ⟨_, hkv, Or.inr ⟨he, ((ih _ hkv s).mpr hreach)⟩⟩

theorem flatten_at_limit (data : PyVal) (cur maxd : Nat) (h : maxd ≤ cur) :
    flatten_hierarchy_post_process data cur maxd =
      .list ((extract_all_leaves data).map .str) := by
  cases data with
  | str s =>
      rw [flatten_hierarchy_post_process, if_pos h]
      intro kvs hk
      cases hk
  | none =>
      rw [flatten_hierarchy_post_process, if_pos h]
      intro kvs hk
      cases hk
  | list l =>
      rw [flatten_hierarchy_post_process, if_pos h]
      intro kvs hk
      cases hk
  | dict kvs => rw [flatten_hierarchy_post_process, if_pos h]

/-- C9: for every root identifier the lexical graph accessor cannot
resolve (and that is not the empty string, which Python first replaces by
`'entity.n.01'`), the Top-Down Expander's generation call returns the empty
structure `{}`; the embedding is total, mirroring that the source catches
the lookup exception and does not raise. -/
theorem C9_unresolvable_root_yields_empty (g : WordNet) (rootStr : String)
    (maxDepth : Nat) (filterIds : Option (List String)) (strict bl : Bool)
    (h0 : rootStr.isEmpty = false) (h1 : g.synsetByName rootStr = Option.none) :
    generate_imagenet_tree_hierarchy g rootStr maxDepth filterIds strict bl =
      .dict [] := by
  rw [generate_imagenet_tree_hierarchy]
  simp [h0, h1]

theorem buildRem_strict_excluded (g : WordNet) (valid : Option (List String))
    (bl : Bool) (rem s : Nat) (p : Nat) (rest : List Nat)
    (hsyn : g.synsetsOf (replaceChar ' ' '_' (displayName g s)) = p :: rest)
    (hne : p ≠ s) :
    buildRem g valid true bl rem s = Option.none := by
  rw [buildRem.eq_def]
  rcases hb : (bl && ABSTRACT_CATEGORIES.contains (splitDotHead (g.synsetName s))) with _ | _
  · rw [if_neg (by simp [hb])]
    rw [if_pos]
    simp only [get_primary_synset, hsyn, List.head?, Bool.true_and]
    exact decide_eq_true hne
  · rw [if_pos (by simp [hb])]

/-- Bottom-up path merge: inserting two name paths that share a prefix into
an empty tree produces one chain for the shared prefix, ending in a level
holding both tails — the prefix appears exactly once and the second
insertion reuses every name the first one created. -/
theorem insertPath_merge : ∀ (pre : List String) (x y : String), x ≠ y →
    insertPath (pre ++ [y]) (insertPath (pre ++ [x]) []) =
      chainTrie pre [(x, .dict []), (y, .dict [])]
  | [], x, y, hxy => by
      rw [List.nil_append, List.nil_append]
      have e1 : insertPath [x] ([] : List (String × PyVal)) = [(x, .dict [])] := rfl
      rw [e1, insertPath]
      rw [if_neg (by simp [containsKey, hxy])]
      rfl
  | n :: ns, x, y, hxy => by
      have e1 : insertPath ((n :: ns) ++ [x]) ([] : List (String × PyVal)) =
          [(n, .dict (insertPath (ns ++ [x]) []))] := by
        rw [List.cons_append, insertPath]
        rw [if_neg (by simp [containsKey])]
        rfl
      rw [e1, List.cons_append, insertPath]
      rw [if_pos (by simp [containsKey])]
      rw [updateKey, if_pos rfl]
      show [(n, .dict (insertPath (ns ++ [y]) (insertPath (ns ++ [x]) [])))] =
        chainTrie (n :: ns) [(x, .dict []), (y, .dict [])]
      rw [insertPath_merge ns x y hxy]
      rfl

theorem g7_child_eval (valid : Option (List String)) (m : Nat) :
    buildRem g7 valid false false (Nat.succ m) 1 =
      (if (setTruthy valid && !((validList valid).contains "n00000002")) = true
       then Option.none else some (.str "child")) := by
  rw [buildRem]
  have h1 : g7.hyponyms 1 = [] := rfl
  have h2 : displayName g7 1 = "child" := rfl
  have h3 : wnidOf g7 1 = "n00000002" := rfl
  simp [h1, h2, h3]

theorem g7_root_kept (valid : Option (List String)) (m : Nat)
    (hc : (setTruthy valid && !((validList valid).contains "n00000002")) = false) :
    buildRem g7 valid false false (Nat.succ (Nat.succ m)) 0 =
      some (.dict [("child", .str "child")]) := by
  rw [buildRem]
  have h1 : g7.hyponyms 0 = [1] := rfl
  have h2 : displayName g7 1 = "child" := rfl
  have h3 : displayName g7 0 = "root" := rfl
  have h4 : pyTruthy (.str "child") = true := rfl
  have hc' : ¬(setTruthy valid = true ∧ ("n00000002" : String) ∉ validList valid) := by
    simpa using hc
  simp [h1, h2, h3, h4, g7_child_eval valid m, hc', dictInsert]

theorem g7_root_pruned (valid : Option (List String)) (m : Nat)
    (hc : (setTruthy valid && !((validList valid).contains "n00000002")) = true)
    (hr : (setTruthy valid && !((validList valid).contains "n00000001")) = true) :
    buildRem g7 valid false false (Nat.succ (Nat.succ m)) 0 = Option.none := by
  rw [buildRem]
  have h1 : g7.hyponyms 0 = [1] := rfl
  have h3 : wnidOf g7 0 = "n00000001" := rfl
  have hc' : setTruthy valid = true ∧ ("n00000002" : String) ∉ validList valid := by
    simpa using hc
  have hr' : setTruthy valid = true ∧ ("n00000001" : String) ∉ validList valid := by
    simpa using hr
  simp [h1, h3, g7_child_eval valid m, hc', hr']

theorem g7_generate_kept (valid : Option (List String)) (maxD : Nat)
    (hm : 2 ≤ maxD)
    (hc : (setTruthy valid && !((validList valid).contains "n00000002")) = false) :
    generate_imagenet_tree_hierarchy g7 "root.n.01" maxD valid false false =
      .dict [("root", .dict [("child", .str "child")])] := by
  obtain ⟨m, rfl⟩ : ∃ m, maxD = m + 2 := ⟨maxD - 2, by omega⟩
  have e0 : ("root.n.01" : String).isEmpty = false := rfl
  have e1 : g7.synsetByName "root.n.01" = some 0 := rfl
  have e2 : displayName g7 0 = "root" := rfl
  have e3 : m + 2 - 0 = Nat.succ (Nat.succ m) := by omega
  unfold generate_imagenet_tree_hierarchy build_hierarchy_tree_recursive
  simp only [e0, Bool.false_eq_true, if_false, e1, e2, e3]
  rw [g7_root_kept valid m hc]
  rfl

theorem g7_generate_pruned (valid : Option (List String)) (maxD : Nat)
    (hm : 2 ≤ maxD)
    (hc : (setTruthy valid && !((validList valid).contains "n00000002")) = true)
    (hr : (setTruthy valid && !((validList valid).contains "n00000001")) = true) :
    generate_imagenet_tree_hierarchy g7 "root.n.01" maxD valid false false =
      .dict [] := by
  obtain ⟨m, rfl⟩ : ∃ m, maxD = m + 2 := ⟨maxD - 2, by omega⟩
  have e0 : ("root.n.01" : String).isEmpty = false := rfl
  have e1 : g7.synsetByName "root.n.01" = some 0 := rfl
  have e3 : m + 2 - 0 = Nat.succ (Nat.succ m) := by omega
  unfold generate_imagenet_tree_hierarchy build_hierarchy_tree_recursive
  simp only [e0, Bool.false_eq_true, if_false, e1, e3]
  rw [g7_root_pruned valid m hc hr]

theorem build_same_name_overwrites (g : WordNet) (p c1 c2 : Nat)
    (valid : Option (List String)) (depth maxD : Nat) (v1 v2 : PyVal)
    (hkids : g.hyponyms p = [c1, c2])
    (hname : displayName g c1 = displayName g c2)
    (h1 : build_hierarchy_tree_recursive g c1 valid (depth + 1) maxD false false = some v1)
    (ht1 : pyTruthy v1 = true)
    (h2 : build_hierarchy_tree_recursive g c2 valid (depth + 1) maxD false false = some v2)
    (ht2 : pyTruthy v2 = true)
    (hd : depth < maxD) :
    build_hierarchy_tree_recursive g p valid depth maxD false false =
      some (.dict [(displayName g c2, v2)]) := by
  obtain ⟨k, hk⟩ : ∃ k, maxD - depth = Nat.succ k := ⟨maxD - depth - 1, by omega⟩
  have hk1 : maxD - (depth + 1) = k := by omega
  unfold build_hierarchy_tree_recursive at h1 h2 ⊢
  rw [hk1] at h1 h2
  rw [hk, buildRem]
  simp [hkids, h1, h2, ht1, ht2, hname, dictInsert]

theorem C9_witness :
    generate_imagenet_tree_hierarchy g9 "dog.n.01" 3 Option.none true false =
      .dict [] :=
  C9_unresolvable_root_yields_empty g9 "dog.n.01" 3 Option.none true false rfl rfl

/-- C1 (counterexample): the Shape Canonicalizer is not idempotent on all
valid intermediate trees: on `{'a': 'x', 'b': 'x'}` the all-leaf collapse
keeps the duplicate (`['x', 'x']`), and a second application deduplicates
it to `['x']`. -/
theorem C1_idempotence_counterexample :
    convert_to_wildcard_format
        (convert_to_wildcard_format (.dict [("a", .str "x"), ("b", .str "x")])) ≠
      convert_to_wildcard_format (.dict [("a", .str "x"), ("b", .str "x")]) := by
  decide

/-- C1 (amended): the Shape Canonicalizer is idempotent on every valid
intermediate tree in which no mapping has two children whose collapsed
leaf values coincide (the condition the counterexample forces):
`canonicalize(canonicalize(T)) = canonicalize(T)`. -/
theorem C1_idempotent_on_collision_free_trees (T : PyVal)
    (hv : validTreeB T = true) (hd : distinctLeafB T = true) :
    convert_to_wildcard_format (convert_to_wildcard_format T) =
      convert_to_wildcard_format T :=
  convert_eq_self_of_canon _ (canon_of_convert T hv hd)

theorem C1_witness :
    validTreeB (.dict [("b", .dict []), ("a", .dict [])]) = true ∧
    distinctLeafB (.dict [("b", .dict []), ("a", .dict [])]) = true ∧
    convert_to_wildcard_format
        (convert_to_wildcard_format (.dict [("b", .dict []), ("a", .dict [])])) =
      convert_to_wildcard_format (.dict [("b", .dict []), ("a", .dict [])]) :=
  ⟨by decide, by decide,
    C1_idempotent_on_collision_free_trees _ (by decide) (by decide)⟩

/-- C2 (counterexample): the all-leaf collapse is sorted but not
deduplicated: `{'a': 'x', 'b': 'x'}` canonicalizes to `['x', 'x']`, not to
the deduplicated `['x']` the claim demands. -/
theorem C2_all_leaf_collapse_counterexample :
    convert_to_wildcard_format (.dict [("a", .str "x"), ("b", .str "x")]) =
        .list [.str "x", .str "x"] ∧
      convert_to_wildcard_format (.dict [("a", .str "x"), ("b", .str "x")]) ≠
        .list [.str "x"] := by
  decide

/-- C2 (amended): for every non-empty mapping all of whose children
canonicalize to leaves (empty-dict marker, bare string, or `None`), the
Shape Canonicalizer returns the sorted list of exactly those leaf values,
one per child (so `{'b': {}, 'a': {}}` gives `['a', 'b']`), but duplicates
among the leaf values are retained, not removed; and on every valid tree
no non-empty `Map` of the canonical output has all-leaf children. -/
theorem C2_all_leaf_collapse_amended :
    (∀ kvs : List (String × PyVal), kvs ≠ [] →
      (∀ p ∈ kvs, is_leaf_content (convert_to_wildcard_format p.2) = true) →
      convert_to_wildcard_format (.dict kvs) =
        .list ((sortStrs (kvs.map fun p =>
          leafValSpec p.1 (convert_to_wildcard_format p.2))).map .str)) ∧
    (∀ T, validTreeB T = true →
      mapsNeverAllLeaf (convert_to_wildcard_format T) = true) :=
  ⟨all_leaf_collapse, fun T hv => mnal_of_noLeaf _ (cf_mapsNoLeafValues T hv)⟩

theorem C2_witness :
    convert_to_wildcard_format (.dict [("b", .dict []), ("a", .dict [])]) =
        .list [.str "a", .str "b"] ∧
      mapsNeverAllLeaf (convert_to_wildcard_format
        (.dict [("root", .dict [("leaf1", .dict []),
          ("sub", .dict [("leaf2", .dict [])])])])) = true :=
  ⟨(C2_all_leaf_collapse_amended.1 [("b", .dict []), ("a", .dict [])]
      (by decide) (by decide)).trans (by decide),
    C2_all_leaf_collapse_amended.2 _ (by decide)⟩

/-- C3 (code bug): canonicalizing the mixed parent
`{'leaf1': {}, 'sub': {'leaf2': {}}}` yields the map
`{'leaf1': ['leaf1'], 'sub': ['leaf2']}` — the redundant-singleton
collapse of src/app.py:95-97 is undone by the re-wrapping at line 117, so
`leaf1`'s entry is the singleton list `['leaf1']`, not the bare string the
spec and the repository's own tests
(`test_convert_legacy_mixed`/`test_convert_tree_mixed`) expect. -/
theorem C3_wrapped_singleton_survives :
    convert_to_wildcard_format
        (.dict [("leaf1", .dict []), ("sub", .dict [("leaf2", .dict [])])]) =
      .dict [("leaf1", .list [.str "leaf1"]), ("sub", .list [.str "leaf2"])] := by
  decide

/-- C4 (counterexample): flattening the chain `a → b → c → d` at
`maxDepth = 1` keeps only `'d'` under `'a'` — the intermediate names `'b'`
and `'c'` are not collected, contradicting the claimed `{'b','c','d'}`. -/
theorem C4_depth_flattening_counterexample :
    flatten_hierarchy_post_process
        (.dict [("a", .dict [("b", .dict [("c", .dict [("d", .dict [])])])])]) 0 1 =
      .dict [("a", .list [.str "d"])] ∧
    "b" ∉ extract_all_leaves (flatten_hierarchy_post_process
      (.dict [("a", .dict [("b", .dict [("c", .dict [("d", .dict [])])])])]) 0 1) := by
  decide

/-- C4 (amended): for every single-child chain `a → b → c → d` (with `d`
an empty-marker leaf) flattened with `maxDepth = 1` from depth 0, the
output retains only the root key `a`, mapped to the flat list of the leaf
names beneath it — which is exactly `['d']`, because only dict keys with
empty/`None` values, bare strings, and list elements count as leaves. -/
theorem C4_depth_flattening_amended (a b c d : String) :
    flatten_hierarchy_post_process
        (.dict [(a, .dict [(b, .dict [(c, .dict [(d, .dict [])])])])]) 0 1 =
      .dict [(a, .list [.str d])] := rfl

/-- C5 (counterexample): the flattened subtree keeps duplicates: the same
leaf name `'x'` in two branches is collected twice (the collector is a
list, not a set). -/
theorem C5_flatten_dedup_counterexample :
    flatten_hierarchy_post_process
        (.dict [("a", .dict [("x", .dict [])]), ("b", .dict [("x", .dict [])])]) 0 0 =
      .list [.str "x", .str "x"] ∧
    ¬ (extract_all_leaves
        (.dict [("a", .dict [("x", .dict [])]), ("b", .dict [("x", .dict [])])])).Nodup := by
  decide

/-- C5 (amended): at every node reached with `currentDepth >= maxDepth`
the Depth Flattener replaces the whole subtree by the flat list of exactly
the reachable leaf names (bare strings, dict keys with empty/`None`
values, elements of nested lists) — with duplicates retained when the same
name occurs in several branches. -/
theorem C5_flatten_at_limit_amended (data : PyVal) (cur maxd : Nat)
    (h : maxd ≤ cur) :
    flatten_hierarchy_post_process data cur maxd =
        .list ((extract_all_leaves data).map .str) ∧
      ∀ s, s ∈ extract_all_leaves data ↔ LeafReach s data :=
  ⟨flatten_at_limit data cur maxd h, fun s => mem_extract_iff data s⟩

theorem C5_witness :
    flatten_hierarchy_post_process
        (.dict [("a", .dict [("x", .dict [])]), ("b", .dict [("x", .dict [])])]) 0 0 =
      .list [.str "x", .str "x"] :=
  ((C5_flatten_at_limit_amended
    (.dict [("a", .dict [("x", .dict [])]), ("b", .dict [("x", .dict [])])])
    0 0 (Nat.le_refl 0)).1).trans (by decide)

/-- C6: with strict primary-sense filtering enabled, every node whose own
display name looks up to a non-empty synset list whose first (primary)
entry is a different node expands to `None` — regardless of depth,
validity set, or the blacklist flag, and even when the node has valid
children. -/
theorem C6_strict_primary_sense_exclusion (g : WordNet) (s : Nat)
    (valid : Option (List String)) (depth maxDepth : Nat) (bl : Bool)
    (p : Nat) (rest : List Nat)
    (hsyn : g.synsetsOf (replaceChar ' ' '_' (displayName g s)) = p :: rest)
    (hne : p ≠ s) :
    build_hierarchy_tree_recursive g s valid depth maxDepth true bl =
      Option.none :=
  buildRem_strict_excluded g valid bl (maxDepth - depth) s p rest hsyn hne

theorem C6_witness :
    build_hierarchy_tree_recursive g6 0 Option.none 0 3 true false =
      Option.none :=
  C6_strict_primary_sense_exclusion g6 0 Option.none 0 3 false 1 [0]
    (by decide) (by decide)

/-- C7 (counterexample): an empty `ValiditySet` contains neither key, yet
the result is the full two-node tree, not the empty structure — Python's
`if valid_wnids:` treats the empty set as "no restriction". -/
theorem C7_empty_set_counterexample :
    generate_imagenet_tree_hierarchy g7 "root.n.01" 5 (some []) false false =
        .dict [("root", .dict [("child", .str "child")])] ∧
      generate_imagenet_tree_hierarchy g7 "root.n.01" 5 (some []) false false ≠
        .dict [] := by
  decide

/-- C7 (amended): for the two-node tree `root → child` (strict-sense and
blacklist disabled, `maxDepth ≥ 2` so flattening is not triggered): with a
`ValiditySet` holding exactly the child's key the result keeps both root
and child; with a *non-empty* `ValiditySet` containing neither key the
result is empty. -/
theorem C7_validity_filtering_amended (maxD : Nat) (hm : 2 ≤ maxD) :
    (generate_imagenet_tree_hierarchy g7 "root.n.01" maxD
        (some ["n00000002"]) false false =
      .dict [("root", .dict [("child", .str "child")])]) ∧
    (∀ (w : String) (ws : List String),
      "n00000001" ∉ w :: ws → "n00000002" ∉ w :: ws →
      generate_imagenet_tree_hierarchy g7 "root.n.01" maxD
          (some (w :: ws)) false false =
        .dict []) := by
  constructor
  · exact g7_generate_kept _ maxD hm (by decide)
  · intro w ws hw1 hw2
    have hc2 : ((w :: ws).contains "n00000002") = false := by simpa using hw2
    have hc1 : ((w :: ws).contains "n00000001") = false := by simpa using hw1
    exact g7_generate_pruned _ maxD hm
      (by simp [setTruthy, validList]; simpa using hw2)
      (by simp [setTruthy, validList]; simpa using hw1)

theorem C7_witness :
    (generate_imagenet_tree_hierarchy g7 "root.n.01" 2
        (some ["n00000002"]) false false =
      .dict [("root", .dict [("child", .str "child")])]) ∧
    generate_imagenet_tree_hierarchy g7 "root.n.01" 2
        (some ["zzz"]) false false =
      .dict [] :=
  ⟨(C7_validity_filtering_amended 2 (by decide)).1,
    (C7_validity_filtering_amended 2 (by decide)).2 "zzz" []
      (by decide) (by decide)⟩

/-- C8: bottom-up path merge: inserting any two paths that share a prefix
produces a single tree in which the shared prefix appears exactly once and
both tails sit under it (names already present at a level are reused);
end to end, two wnids with primary paths `entity → animal → dog` and
`entity → animal → cat` merge into one shared tree. -/
theorem C8_bottom_up_path_merge :
    (∀ (pre : List String) (x y : String), x ≠ y →
      insertPath (pre ++ [y]) (insertPath (pre ++ [x]) []) =
        chainTrie pre [(x, .dict []), (y, .dict [])]) ∧
    generate_imagenet_wnid_hierarchy g8 ["n00000100", "n00000101"] 10
        Option.none =
      .dict [("entity", .dict [("animal",
        .dict [("dog", .dict []), ("cat", .dict [])])])] :=
  ⟨insertPath_merge, by decide⟩

theorem C8_witness :
    insertPath (["entity", "animal"] ++ ["cat"])
        (insertPath (["entity", "animal"] ++ ["dog"]) []) =
      chainTrie ["entity", "animal"] [("dog", .dict []), ("cat", .dict [])] :=
  C8_bottom_up_path_merge.1 ["entity", "animal"] "dog" "cat" (by decide)

/-- C10: during top-down expansion child results are keyed by display
name, so when a parent's two children share a display name and both
expand to truthy results, the output holds a single entry for that name
containing only the later-visited child's subtree. -/
theorem C10_same_name_overwrites (g : WordNet) (p c1 c2 : Nat)
    (valid : Option (List String)) (depth maxD : Nat) (v1 v2 : PyVal)
    (hkids : g.hyponyms p = [c1, c2])
    (hname : displayName g c1 = displayName g c2)
    (h1 : build_hierarchy_tree_recursive g c1 valid (depth + 1) maxD false false = some v1)
    (ht1 : pyTruthy v1 = true)
    (h2 : build_hierarchy_tree_recursive g c2 valid (depth + 1) maxD false false = some v2)
    (ht2 : pyTruthy v2 = true)
    (hd : depth < maxD) :
    build_hierarchy_tree_recursive g p valid depth maxD false false =
      some (.dict [(displayName g c2, v2)]) :=
  build_same_name_overwrites g p c1 c2 valid depth maxD v1 v2 hkids hname
    h1 ht1 h2 ht2 hd

theorem C10_witness :
    build_hierarchy_tree_recursive g10 0 Option.none 0 3 false false =
      some (.dict [("n", .dict [("g2", .str "g2")])]) :=
  (C10_same_name_overwrites g10 0 1 2 Option.none 0 3
      (.dict [("g1", .str "g1")]) (.dict [("g2", .str "g2")])
      (by decide) (by decide) (by decide) (by decide) (by decide) (by decide)
      (by decide)).trans (by decide)
